import Mathlib

/-
Verification development for the feed-tree model of the rssguard repository.

Shallow embedding of src/src/core/feedsmodel.cpp and src/src/core/debugging.cpp.

Items (RootItem objects) are identified by natural-number ids standing for the
C++ object pointers.  The in-memory item tree is carried by the FeedsModel
state structure: per-id kind, ordered child list, parent pointer, feed status
and feed-held unread count.  The field ids lists every allocated item id and
serves as the finite universe used to bound the parent-chain walks that the
C++ code performs with unbounded while loops (the walks are embedded as
fuel-indexed recursions, invoked with fuel ids.length + 1 which provably
suffices on well-formed trees).

Qt collaborator types (QModelIndex, Qt drop actions, Qt message types) are
embedded structurally.  Signal emissions are modelled as explicit traces:
each void member function returns the list of signals it emits, and
dropMimeData returns the resulting state together with its trace.
-/

/-- Embedding of the RootItemKind enumeration of the item hierarchy. -/
inductive RootItemKind where
  | Root
  | ServiceRoot
  | Category
  | Feed
  | Bin
deriving DecidableEq, Repr

/-- Embedding of the Feed status enumeration; NewMessages is the state the
model inspects in hasAnyFeedNewMessages. -/
inductive FeedStatus where
  | Normal
  | NewMessages
  | NetworkError
deriving DecidableEq, Repr

/-- Embedding of QModelIndex: either the default-constructed invalid index or
an index created by createIndex, carrying row, column, the internal pointer
(item id) and the identity of the owning model. -/
inductive QModelIndex where
  | invalid
  | mk (row : Int) (column : Int) (ptr : Nat) (model : Nat)
deriving DecidableEq, Repr

/-- QModelIndex row accessor; the invalid index reports row -1 as in Qt. -/
def QModelIndex.row : QModelIndex → Int
  | .invalid => -1
  | .mk r _ _ _ => r

/-- QModelIndex column accessor; the invalid index reports column -1 as in Qt. -/
def QModelIndex.column : QModelIndex → Int
  | .invalid => -1
  | .mk _ c _ _ => c

/-- QModelIndex validity test. -/
def QModelIndex.isValid : QModelIndex → Bool
  | .invalid => false
  | .mk _ _ _ _ => true

/-- Embedding of the Qt drop action enumeration. -/
inductive DropAction where
  | CopyAction
  | MoveAction
  | LinkAction
  | IgnoreAction
  | TargetMoveAction
deriving DecidableEq, Repr

/-- Signals emitted by FeedsModel member functions, recorded as trace events. -/
inductive Signal where
  | layoutAboutToBeChanged
  | layoutChanged
  | dataChanged (topLeft bottomRight : QModelIndex)
  | messageCountsChanged (unread : Int) (anyNew : Bool)
  | requireItemValidationAfterDragDrop (idx : QModelIndex)
  | guiMessage
deriving DecidableEq, Repr

/-- First index where x occurs in l, as QList indexOf computes it (first
occurrence), in Option form. -/
def qFindIdx : List Nat → Nat → Option Nat
  | [], _ => none
  | y :: ys, x => if y = x then some 0 else (qFindIdx ys x).map (· + 1)

/-- Embedding of QList indexOf: first index of x in l, or -1 when absent. -/
def qIndexOf (l : List Nat) (x : Nat) : Int :=
  match qFindIdx l x with
  | some n => (n : Int)
  | none => -1

/-- State of one FeedsModel instance together with the item tree it adapts.
modelId is the identity of the model object (the this pointer), rootItem the
id of m_rootItem.  kindOf, childrenOf, parentOf, statusOf, unreadOf embed the
RootItem fields; ids is the finite universe of allocated item ids. -/
structure FeedsModel where
  modelId : Nat
  rootItem : Nat
  kindOf : Nat → RootItemKind
  childrenOf : Nat → List Nat
  parentOf : Nat → Option Nat
  statusOf : Nat → FeedStatus
  unreadOf : Nat → Int
  ids : List Nat

/-- Modelled from the spec: the fixed threshold constant
RELOAD_MODEL_BORDER_NUM from definitions/definitions.h, which is not among
the provided sources.  The spec fixes only that it is a constant policy value
(a bulk change-set of 150 items lies above it). -/
def RELOAD_MODEL_BORDER_NUM : Nat := 10

/-- Modelled from the spec: FEEDS_VIEW_COLUMN_COUNT from definitions.h; the
spec states the grid has column 0 (titles) and column 1 (counts). -/
def FEEDS_VIEW_COLUMN_COUNT : Int := 2

/-- Modelled from the spec: FDS_MODEL_COUNTS_INDEX from definitions.h, the
last (counts) column, column 1. -/
def FDS_MODEL_COUNTS_INDEX : Int := 1

/-- Embedding of FeedsModel::itemForIndex: a valid index belonging to this
model resolves to its internal pointer, anything else to the root item. -/
def FeedsModel.itemForIndex (m : FeedsModel) : QModelIndex → Nat
  | .invalid => m.rootItem
  | .mk _ _ ptr model => if model = m.modelId then ptr else m.rootItem

/-- Embedding of FeedsModel::columnCount: FEEDS_VIEW_COLUMN_COUNT, with the
parent index unused. -/
def FeedsModel.columnCount (_m : FeedsModel) (_parent : QModelIndex) : Int :=
  FEEDS_VIEW_COLUMN_COUNT

/-- Embedding of FeedsModel::rowCount: 0 for a parent in a column past 0,
otherwise the child count of the item addressed by the parent index. -/
def FeedsModel.rowCount (m : FeedsModel) (parent : QModelIndex) : Int :=
  if parent.column > 0 then 0
  else ((m.childrenOf (m.itemForIndex parent)).length : Int)

/-- Embedding of QAbstractItemModel::hasIndex (Qt framework behaviour): the
row and column must be nonnegative and within rowCount/columnCount of the
parent. -/
def FeedsModel.hasIndex (m : FeedsModel) (row column : Int) (parent : QModelIndex) : Bool :=
  decide (0 ≤ row) && decide (row < m.rowCount parent) &&
  decide (0 ≤ column) && decide (column < m.columnCount parent)

/-- Embedding of FeedsModel::index: guarded by hasIndex, then looks up the
row-th child of the item addressed by parent (RootItem::child returns null
out of range, embedded as Option) and wraps it with createIndex. -/
def FeedsModel.index (m : FeedsModel) (row column : Int) (parent : QModelIndex) : QModelIndex :=
  if m.hasIndex row column parent then
    match (m.childrenOf (m.itemForIndex parent)).get? row.toNat with
    | some child_item => QModelIndex.mk row column child_item m.modelId
    | none => QModelIndex.invalid
  else QModelIndex.invalid

/-- Modelled from the spec: RootItem::row (used by FeedsModel::parent via
parent_item->row()), not among the provided sources; the spec describes an
item coordinate row as the index of the item among the children of its
parent. -/
def FeedsModel.rowOfItem (m : FeedsModel) (i : Nat) : Int :=
  match m.parentOf i with
  | some p => qIndexOf (m.childrenOf p) i
  | none => 0

/-- Embedding of FeedsModel::parent: invalid child yields invalid; otherwise
the parent item of the addressed item is wrapped with createIndex at column 0
unless it is the root item.  A null parent pointer would be dereferenced by
the C++ code (undefined behaviour); it is embedded as the invalid index and
never arises on well-formed input. -/
def FeedsModel.parent (m : FeedsModel) (child : QModelIndex) : QModelIndex :=
  match child with
  | .invalid => QModelIndex.invalid
  | .mk _ _ _ _ =>
    let child_item := m.itemForIndex child
    match m.parentOf child_item with
    | none => QModelIndex.invalid
    | some parent_item =>
      if parent_item = m.rootItem then QModelIndex.invalid
      else QModelIndex.mk (m.rowOfItem parent_item) 0 parent_item m.modelId

/-- Embedding of the parent-chain collection loop of FeedsModel::indexForItem
(while kind is not Root: push item, move to parent), as a fuel-indexed
recursion.  The result list is in stack pop order: topmost ancestor first,
the given item last.  none marks fuel exhaustion or a null parent, on which
the C++ loop would not terminate or would crash. -/
def chainToRoot (m : FeedsModel) : Nat → Nat → List Nat → Option (List Nat)
  | 0, _, _ => none
  | fuel + 1, i, acc =>
    if m.kindOf i = RootItemKind.Root then some acc
    else
      match m.parentOf i with
      | some p => chainToRoot m fuel p (i :: acc)
      | none => none

/-- Embedding of one step of the descending loop of FeedsModel::indexForItem:
target_index becomes index(indexOf of the item among the children of its
parent, 0, target_index).  A null parent would be dereferenced by the C++
code; embedded as invalid and never reached for chain elements. -/
def descendStep (m : FeedsModel) (target_index : QModelIndex) (p : Nat) : QModelIndex :=
  match m.parentOf p with
  | some pp => m.index (qIndexOf (m.childrenOf pp) p) 0 target_index
  | none => QModelIndex.invalid

/-- Embedding of FeedsModel::indexForItem with explicit fuel for the upward
walk: null item or an item of Root kind lies on the invalid index; otherwise
the parent chain is collected and the target index is rebuilt by descending
from the index of the root item, which is the invalid index (the recursive
call indexForItem(m_rootItem) in the source returns the invalid index at
once, since the root item has Root kind). -/
def FeedsModel.indexForItemFuel (m : FeedsModel) (fuel : Nat) (item : Option Nat) : QModelIndex :=
  match item with
  | none => QModelIndex.invalid
  | some i =>
    if m.kindOf i = RootItemKind.Root then QModelIndex.invalid
    else
      match chainToRoot m fuel i [] with
      | none => QModelIndex.invalid
      | some chain => chain.foldl (descendStep m) QModelIndex.invalid

/-- FeedsModel::indexForItem at the canonical fuel ids.length + 1, which
suffices on every well-formed tree. -/
def FeedsModel.indexForItem (m : FeedsModel) (item : Option Nat) : QModelIndex :=
  m.indexForItemFuel (m.ids.length + 1) item

/-- Embedding of the loop body of FeedsModel::mimeData: skip indexes in a
column other than 0, resolve the item, and append its identity token to the
stream unless the item is of Root kind. -/
def mimeStep (m : FeedsModel) (encoded_data : List Nat) (index : QModelIndex) : List Nat :=
  if index.column ≠ 0 then encoded_data
  else
    let item_for_index := m.itemForIndex index
    if m.kindOf item_for_index ≠ RootItemKind.Root then
      encoded_data ++ [item_for_index]
    else encoded_data

/-- Embedding of FeedsModel::mimeData: the foreach loop over the selected
indexes starting from an empty stream.  The encoded byte stream is embedded
as the list of serialized item ids in stream order. -/
def FeedsModel.mimeData (m : FeedsModel) (indexes : List QModelIndex) : List Nat :=
  indexes.foldl (mimeStep m) []

/-- Embedding of FeedsModel::supportedDropActions: the move action only. -/
def FeedsModel.supportedDropActions (_m : FeedsModel) : List DropAction :=
  [DropAction.MoveAction]

/-- Modelled from the spec: RootItem::getSubTreeFeeds, not among the provided
sources; collects the Feed-kind items of the subtree, fuel-indexed over tree
depth. -/
def subTreeFeedsFuel (m : FeedsModel) : Nat → Nat → List Nat
  | 0, _ => []
  | fuel + 1, i =>
    (if m.kindOf i = RootItemKind.Feed then [i] else []) ++
    ((m.childrenOf i).map (subTreeFeedsFuel m fuel)).flatten

/-- Subtree feeds of the whole tree, from the root item, at canonical fuel. -/
def FeedsModel.getSubTreeFeeds (m : FeedsModel) : List Nat :=
  subTreeFeedsFuel m (m.ids.length + 1) m.rootItem

/-- Embedding of FeedsModel::hasAnyFeedNewMessages: some feed of the whole
subtree has status NewMessages (the foreach with early return is List.any). -/
def FeedsModel.hasAnyFeedNewMessages (m : FeedsModel) : Bool :=
  m.getSubTreeFeeds.any (fun feed => m.statusOf feed == FeedStatus.NewMessages)

/-- Modelled from the spec: RootItem::countOfUnreadMessages, not among the
provided sources; the aggregation rule of the spec sums the counts of the
children, feeds being the only leaves holding a directly-owned count. -/
def subTreeUnreadFuel (m : FeedsModel) : Nat → Nat → Int
  | 0, _ => 0
  | fuel + 1, i =>
    if m.kindOf i = RootItemKind.Feed then m.unreadOf i
    else ((m.childrenOf i).map (subTreeUnreadFuel m fuel)).sum

/-- Embedding of FeedsModel::countOfUnreadMessages: the unread count of the
root item, i.e. of the entire tree. -/
def FeedsModel.countOfUnreadMessages (m : FeedsModel) : Int :=
  subTreeUnreadFuel m (m.ids.length + 1) m.rootItem

/-- Embedding of FeedsModel::notifyWithCounts: emits messageCountsChanged
with the total unread count and the any-new-messages flag. -/
def FeedsModel.notifyWithCounts (m : FeedsModel) : List Signal :=
  [Signal.messageCountsChanged m.countOfUnreadMessages m.hasAnyFeedNewMessages]

/-- Embedding of FeedsModel::reloadWholeLayout: the coarse signal pair. -/
def FeedsModel.reloadWholeLayout (_m : FeedsModel) : List Signal :=
  [Signal.layoutAboutToBeChanged, Signal.layoutChanged]

/-- Embedding of the queue loop of FeedsModel::reloadChangedLayout: take the
first index; when valid, emit dataChanged spanning columns 0 through
FDS_MODEL_COUNTS_INDEX of its row and append its parent index to the queue.
Fuel-indexed; the C++ while loop terminates because parent chains reach the
root, whose index is invalid. -/
def FeedsModel.reloadChangedLayoutAux (m : FeedsModel) : Nat → List QModelIndex → List Signal
  | 0, _ => []
  | _ + 1, [] => []
  | fuel + 1, indx :: rest =>
    if indx.isValid then
      let indx_parent := m.parent indx
      Signal.dataChanged (m.index indx.row 0 indx_parent)
          (m.index indx.row FDS_MODEL_COUNTS_INDEX indx_parent)
        :: m.reloadChangedLayoutAux fuel (rest ++ [indx_parent])
    else m.reloadChangedLayoutAux fuel rest

/-- Embedding of FeedsModel::reloadChangedItem: reloadChangedLayout on the
singleton queue holding the index of the item, at canonical fuel. -/
def FeedsModel.reloadChangedItem (m : FeedsModel) (item : Nat) : List Signal :=
  m.reloadChangedLayoutAux (m.ids.length + 2) [m.indexForItem (some item)]

/-- Embedding of FeedsModel::onItemDataChanged: above the threshold, one full
layout reload; otherwise each item reloaded individually; always concluded by
notifyWithCounts. -/
def FeedsModel.onItemDataChanged (m : FeedsModel) (items : List Nat) : List Signal :=
  (if items.length > RELOAD_MODEL_BORDER_NUM then
    m.reloadWholeLayout
  else
    (items.map m.reloadChangedItem).flatten) ++ m.notifyWithCounts

/-- Modelled from the spec: RootItem::getParentServiceRoot, not among the
provided sources; walks from the item up the parent chain to the enclosing
ServiceRoot-kind item (the account), none when the walk reaches the top
without meeting one.  Fuel-indexed. -/
def getParentServiceRootFuel (m : FeedsModel) : Nat → Nat → Option Nat
  | 0, _ => none
  | fuel + 1, i =>
    if m.kindOf i = RootItemKind.ServiceRoot then some i
    else
      match m.parentOf i with
      | some p => getParentServiceRootFuel m fuel p
      | none => none

/-- Parent service root at canonical fuel. -/
def FeedsModel.getParentServiceRoot (m : FeedsModel) (i : Nat) : Option Nat :=
  getParentServiceRootFuel m (m.ids.length + 1) i

/-- Modelled from the spec: the legal-container validation of
RootItem::performDragDropChange; a Feed may live under a Category or a
ServiceRoot but not under another Feed, and likewise a Category. -/
def allowedUnder : RootItemKind → RootItemKind → Bool
  | RootItemKind.Feed, RootItemKind.Category => true
  | RootItemKind.Feed, RootItemKind.ServiceRoot => true
  | RootItemKind.Category, RootItemKind.Category => true
  | RootItemKind.Category, RootItemKind.ServiceRoot => true
  | _, _ => false

/-- Modelled from the spec: the cycle check of performDragDropChange; walks
up from x and reports whether anc is a strict ancestor of x. -/
def strictAncestorFuel (m : FeedsModel) : Nat → Nat → Nat → Bool
  | 0, _, _ => false
  | fuel + 1, x, anc =>
    match m.parentOf x with
    | some p => p = anc || strictAncestorFuel m fuel p anc
    | none => false

/-- Modelled from the spec: the reparenting mutation of
performDragDropChange; the item is detached from the child sequence of its
original parent and appended to the child sequence of the target, and its
parent pointer is redirected. -/
def detachAppend (m : FeedsModel) (item target : Nat) : FeedsModel :=
  { m with
    childrenOf := fun p =>
      let base := if some p = m.parentOf item then (m.childrenOf p).erase item
                  else m.childrenOf p
      if p = target then base ++ [item] else base
    parentOf := fun i => if i = item then some target else m.parentOf i }

/-- Modelled from the spec: RootItem::performDragDropChange, not among the
provided sources; validates that the destination is a legal container for
the kind of the moved item, that the destination is not a descendant of the
moved item (no cycle) and not its current parent (no-op), and on success
detaches the item and appends it under the destination.  some of the new
state on success, none on a rejected move. -/
def performDragDropChange (m : FeedsModel) (item target : Nat) : Option FeedsModel :=
  if allowedUnder (m.kindOf item) (m.kindOf target) = false then none
  else if strictAncestorFuel m (m.ids.length + 1) target item then none
  else if m.parentOf item = some target then none
  else some (detachAppend m item target)

/-- Result of a drop operation: the returned bool, the resulting model state
and the emitted signal trace. -/
structure DropRes where
  res : Bool
  st : FeedsModel
  out : List Signal

/-- Embedding of the decode-and-process loop of FeedsModel::dropMimeData:
for each identity token, resolve dragged and target items; reject (false)
when the dragged item equals the target or its parent equals the target;
reject with a gui warning when the parent service roots differ; otherwise
delegate to performDragDropChange and on success emit
requireItemValidationAfterDragDrop at the new index of the dragged item;
when all tokens are processed, return true. -/
def dropLoop (parentIdx : QModelIndex) : FeedsModel → List Nat → DropRes
  | m, [] => ⟨true, m, []⟩
  | m, pointer_to_item :: rest =>
    let dragged_item := pointer_to_item
    let target_item := m.itemForIndex parentIdx
    let dragged_item_root := m.getParentServiceRoot dragged_item
    let target_item_root := m.getParentServiceRoot target_item
    if dragged_item = target_item ∨ m.parentOf dragged_item = some target_item then
      ⟨false, m, []⟩
    else if dragged_item_root ≠ target_item_root then
      ⟨false, m, [Signal.guiMessage]⟩
    else
      match performDragDropChange m dragged_item target_item with
      | some m2 =>
        let r := dropLoop parentIdx m2 rest
        ⟨r.res, r.st,
          Signal.requireItemValidationAfterDragDrop (m2.indexForItem (some dragged_item))
            :: r.out⟩
      | none => dropLoop parentIdx m rest

/-- Embedding of FeedsModel::dropMimeData: the ignore action is accepted
with no effect, any other non-move action is rejected, an empty payload is
rejected, and a non-empty payload under the move action is handed to the
token loop.  The payload byte stream is embedded as the list of decoded
identity tokens. -/
def FeedsModel.dropMimeData (m : FeedsModel) (payload : List Nat) (action : DropAction)
    (_row _column : Int) (parent : QModelIndex) : DropRes :=
  if action = DropAction.IgnoreAction then ⟨true, m, []⟩
  else if action ≠ DropAction.MoveAction then ⟨false, m, []⟩
  else if payload = [] then ⟨false, m, []⟩
  else dropLoop parent m payload

/-- Embedding of the Qt message type enumeration as consumed by the debug
handler switch. -/
inductive QtMsgType where
  | QtDebugMsg
  | QtWarningMsg
  | QtCriticalMsg
  | QtFatalMsg
deriving DecidableEq, Repr

/-- Observable effects of the debug handler: a line on the text sink, or the
application termination request. -/
inductive LogEffect where
  | writeStderr (label file : String) (line : Int) (message : String)
  | exitApp (code : Int)
deriving DecidableEq, Repr

/-- EXIT_FAILURE of the C standard library. -/
def EXIT_FAILURE : Int := 1

/-- Embedding of the DEBUG_OUTPUT_WORKER macro of debugging.cpp: one
formatted line on stderr. -/
def DEBUG_OUTPUT_WORKER (type_string file : String) (line : Int) (message : String) : LogEffect :=
  LogEffect.writeStderr type_string file line message

/-- Embedding of Debugging::debugHandler (debug output enabled): the switch
writes one labelled line per severity, and the fatal case additionally calls
qApp->exit(EXIT_FAILURE) before falling through to the empty default case. -/
def Debugging.debugHandler (type : QtMsgType) (file : String) (line : Int)
    (message : String) : List LogEffect :=
  match type with
  | QtMsgType.QtDebugMsg => [DEBUG_OUTPUT_WORKER ("INFO") file line message]
  | QtMsgType.QtWarningMsg => [DEBUG_OUTPUT_WORKER ("WARNING") file line message]
  | QtMsgType.QtCriticalMsg => [DEBUG_OUTPUT_WORKER ("CRITICAL") file line message]
  | QtMsgType.QtFatalMsg =>
      [DEBUG_OUTPUT_WORKER ("FATAL") file line message, LogEffect.exitApp EXIT_FAILURE]

/-- Effect classifier: true exactly on the termination effect. -/
def LogEffect.isExit : LogEffect → Bool
  | LogEffect.exitApp _ => true
  | _ => false

/-- Effect classifier: true exactly on text-sink writes. -/
def LogEffect.isWrite : LogEffect → Bool
  | LogEffect.writeStderr _ _ _ _ => true
  | _ => false

/-- Position of an id inside the universe list ids, with ids.length as the
out-of-universe default; used to order parents before children. -/
def idIdx (m : FeedsModel) (x : Nat) : Nat :=
  match qFindIdx m.ids x with
  | some n => n
  | none => m.ids.length

/-- Boolean check that the parent of c precedes c in the universe list; part
of the well-formedness of a state. -/
def parentBefore (m : FeedsModel) (c : Nat) : Bool :=
  match m.parentOf c with
  | some p => decide (idIdx m p < idIdx m c)
  | none => true

/-- Well-formedness of a model state: the root item has Root kind, no parent
and lies in the universe; child lists stay in the universe, agree with the
parent pointers, and hold no duplicates; Root kind is exclusive to the root
item; and every parent pointer goes to an earlier universe position, which
makes parent chains finite. -/
structure WF (m : FeedsModel) : Prop where
  root_mem : m.rootItem ∈ m.ids
  root_kind : m.kindOf m.rootItem = RootItemKind.Root
  root_parent : m.parentOf m.rootItem = none
  closed : ∀ p ∈ m.ids, ∀ c ∈ m.childrenOf p, c ∈ m.ids
  parent_consistent : ∀ p ∈ m.ids, ∀ c ∈ m.childrenOf p, m.parentOf c = some p
  children_nodup : ∀ p ∈ m.ids, (m.childrenOf p).Nodup
  kind_root_only : ∀ i ∈ m.ids, m.kindOf i = RootItemKind.Root → i = m.rootItem
  parent_before : ∀ c ∈ m.ids, parentBefore m c = true

/-- Attachment: the items currently reachable from the root item of the
model along child lists. -/
inductive Att (m : FeedsModel) : Nat → Prop where
  | root : Att m m.rootItem
  | child {p c : Nat} : Att m p → c ∈ m.childrenOf p → Att m c

/-- Coordinate of an attached non-root item in the shape indexForItem
produces it: row = position among the children of its parent, column 0,
internal pointer the item, owner this model. -/
def itemIdx (m : FeedsModel) (x : Nat) : QModelIndex :=
  QModelIndex.mk (m.rowOfItem x) 0 x m.modelId

/-- The parent chain of an item collected at canonical fuel, topmost
ancestor first, the item itself last; empty for the root item. -/
def ancestorChain (m : FeedsModel) (i : Nat) : List Nat :=
  (chainToRoot m (m.ids.length + 1) i []).getD []

/-- The dataChanged signal spanning columns 0 through FDS_MODEL_COUNTS_INDEX
of the row of an item, as reloadChangedLayout emits it. -/
def rowRegionSig (m : FeedsModel) (x : Nat) : Signal :=
  Signal.dataChanged (m.index (m.rowOfItem x) 0 (m.parent (itemIdx m x)))
    (m.index (m.rowOfItem x) FDS_MODEL_COUNTS_INDEX (m.parent (itemIdx m x)))

/-- Expected trace of reloadChangedItem: one row region signal for the item
and then one per ancestor, bottom-up, the root excluded. -/
def ancestorRowSignals (m : FeedsModel) (i : Nat) : List Signal :=
  (ancestorChain m i).reverse.map (rowRegionSig m)

/-- The selection predicate realised by mimeData: an index contributes one
token exactly when it is in column 0 and resolves to a non-Root item. -/
def mimeKeep (m : FeedsModel) (index : QModelIndex) : Bool :=
  decide (index.column = 0) &&
  decide (m.kindOf (m.itemForIndex index) ≠ RootItemKind.Root)

/-- Concrete example state: root item 0 (Root kind) holding one account
item 1 (ServiceRoot); under the account, category 2 holding feed 3, and a
second category 4.  The model object has identity 7, and feed 3 is in the
NewMessages state with 5 unread messages. -/
def exM : FeedsModel where
  modelId := 7
  rootItem := 0
  kindOf := fun i =>
    if i = 0 then RootItemKind.Root
    else if i = 1 then RootItemKind.ServiceRoot
    else if i = 2 then RootItemKind.Category
    else if i = 3 then RootItemKind.Feed
    else if i = 4 then RootItemKind.Category
    else RootItemKind.Bin
  childrenOf := fun i =>
    if i = 0 then [1]
    else if i = 1 then [2, 4]
    else if i = 2 then [3]
    else []
  parentOf := fun i =>
    if i = 1 then some 0
    else if i = 2 then some 1
    else if i = 3 then some 2
    else if i = 4 then some 1
    else none
  statusOf := fun i => if i = 3 then FeedStatus.NewMessages else FeedStatus.Normal
  unreadOf := fun i => if i = 3 then 5 else 0
  ids := [0, 1, 2, 3, 4]

/-- Coordinate of the second category (item 4) in the example state, as the
model produces it: row 1 under the account, column 0. -/
def tIdx : QModelIndex := QModelIndex.mk 1 0 4 7

lemma att_mem {m : FeedsModel} (hw : WF m) {i : Nat} (ha : Att m i) : i ∈ m.ids := by
  induction ha with
  | root => exact hw.root_mem
  | child hp hc ih => exact hw.closed _ ih _ hc

lemma qFindIdx_of_mem {l : List Nat} {x : Nat} (hx : x ∈ l) :
    ∃ n, qFindIdx l x = some n ∧ l.get? n = some x := by
  induction l with
  | nil => cases hx
  | cons y ys ih =>
    by_cases hy : y = x
    · exact ⟨0, by simp [qFindIdx, hy], by simp [hy]⟩
    · rcases List.mem_cons.mp hx with h | h
      · exact absurd h.symm hy
      · rcases ih h with ⟨n, hn, hg⟩
        exact ⟨n + 1, by simp [qFindIdx, hy, hn], by simpa using hg⟩

lemma qFindIdx_get {l : List Nat} {x : Nat} {n : Nat} (hnd : l.Nodup)
    (hg : l.get? n = some x) : qFindIdx l x = some n := by
  induction l generalizing n with
  | nil => simp at hg
  | cons y ys ih =>
    cases n with
    | zero =>
      rw [List.get?_cons_zero] at hg
      injection hg with hg
      simp [qFindIdx, hg]
    | succ k =>
      rw [List.get?_cons_succ] at hg
      have hyx : y ≠ x := by
        intro he
        exact (List.nodup_cons.mp hnd).1 (he ▸ (List.get?_mem hg))
      simp [qFindIdx, hyx, ih (List.nodup_cons.mp hnd).2 hg]

lemma get?_lt_length {l : List Nat} {n : Nat} {x : Nat} (hg : l.get? n = some x) :
    n < l.length := by
  by_contra h
  rw [List.get?_eq_none.mpr (Nat.le_of_not_lt h)] at hg
  cases hg

lemma idIdx_lt_of_mem {m : FeedsModel} {x : Nat} (hx : x ∈ m.ids) :
    idIdx m x < m.ids.length := by
  rcases qFindIdx_of_mem hx with ⟨n, hn, hg⟩
  unfold idIdx
  rw [hn]
  exact get?_lt_length hg

lemma parent_before_idx {m : FeedsModel} (hw : WF m) {c p : Nat} (hc : c ∈ m.ids)
    (hp : m.parentOf c = some p) : idIdx m p < idIdx m c := by
  have hb := hw.parent_before c hc
  unfold parentBefore at hb
  rw [hp] at hb
  exact of_decide_eq_true hb

/-- Attached items other than the root have an attached parent recorded by
the parent pointer, and never have Root kind. -/
lemma att_child_parent {m : FeedsModel} (hw : WF m) {p c : Nat} (hp : Att m p)
    (hc : c ∈ m.childrenOf p) :
    m.parentOf c = some p ∧ c ≠ m.rootItem ∧ m.kindOf c ≠ RootItemKind.Root := by
  have hpm : p ∈ m.ids := att_mem hw hp
  have hcm : c ∈ m.ids := hw.closed _ hpm _ hc
  have hpar : m.parentOf c = some p := hw.parent_consistent _ hpm _ hc
  have hne : c ≠ m.rootItem := by
    intro he
    rw [he, hw.root_parent] at hpar
    cases hpar
  refine ⟨hpar, hne, ?_⟩
  intro hk
  exact hne (hw.kind_root_only _ hcm hk)

lemma index_child_eval {m : FeedsModel} {p c : Nat} {tgt : QModelIndex}
    (htgt : m.itemForIndex tgt = p) (hcol : tgt.column ≤ 0)
    (hc : c ∈ m.childrenOf p) :
    m.index (qIndexOf (m.childrenOf p) c) 0 tgt =
      QModelIndex.mk (qIndexOf (m.childrenOf p) c) 0 c m.modelId := by
  rcases qFindIdx_of_mem hc with ⟨n, hn, hg⟩
  have hrow : qIndexOf (m.childrenOf p) c = (n : Int) := by
    unfold qIndexOf
    rw [hn]
  have hlen : n < (m.childrenOf p).length := get?_lt_length hg
  have hrc : m.rowCount tgt = ((m.childrenOf p).length : Int) := by
    unfold FeedsModel.rowCount
    rw [if_neg (by omega), htgt]
  have hhi : m.hasIndex ((n : Int)) 0 tgt = true := by
    unfold FeedsModel.hasIndex
    rw [hrc]
    simp [FeedsModel.columnCount, FEEDS_VIEW_COLUMN_COUNT]
    exact_mod_cast hlen
  rw [hrow]
  unfold FeedsModel.index
  rw [hhi]
  simp only [if_true, htgt, Int.toNat_ofNat, hg]

lemma chain_descend_spec {m : FeedsModel} (hw : WF m) {i : Nat} (ha : Att m i) :
    ∃ ch N, N ≤ idIdx m i + 2 ∧
      (∀ fuel, N ≤ fuel → ∀ acc, chainToRoot m fuel i acc = some (ch ++ acc)) ∧
      (i = m.rootItem → ch = []) ∧
      (i ≠ m.rootItem → ∃ p, m.parentOf i = some p ∧
        ch.foldl (descendStep m) QModelIndex.invalid =
          QModelIndex.mk (qIndexOf (m.childrenOf p) i) 0 i m.modelId) := by
  induction ha with
  | root =>
    refine ⟨[], 1, by omega, ?_, fun _ => rfl, fun h => absurd rfl h⟩
    intro fuel hf acc
    cases fuel with
    | zero => omega
    | succ f => simp [chainToRoot, hw.root_kind]
  | @child p c hp hc ih =>
    obtain ⟨hpar, hne, hkind⟩ := att_child_parent hw hp hc
    obtain ⟨chp, Np, hNp, hchain, hroot, hstep⟩ := ih
    have hcm : c ∈ m.ids := hw.closed _ (att_mem hw hp) _ hc
    have hidx : idIdx m p < idIdx m c := parent_before_idx hw hcm hpar
    refine ⟨chp ++ [c], Np + 1, by omega, ?_, fun h => absurd h hne, ?_⟩
    · intro fuel hf acc
      cases fuel with
      | zero => omega
      | succ f =>
        have hfN : Np ≤ f := by omega
        simp only [chainToRoot, if_neg hkind, hpar]
        rw [hchain f hfN (c :: acc)]
        simp
    · intro _
      refine ⟨p, hpar, ?_⟩
      rw [List.foldl_append]
      show descendStep m (chp.foldl (descendStep m) QModelIndex.invalid) c = _
      by_cases hpr : p = m.rootItem
      · rw [hroot hpr]
        show descendStep m QModelIndex.invalid c = _
        unfold descendStep
        rw [hpar]
        exact index_child_eval (by simp [FeedsModel.itemForIndex, hpr])
          (by simp [QModelIndex.column]) hc
      · obtain ⟨pp, hppar, hfold⟩ := hstep hpr
        rw [hfold]
        unfold descendStep
        rw [hpar]
        exact index_child_eval (by simp [FeedsModel.itemForIndex])
          (by simp [QModelIndex.column]) hc

lemma indexForItem_spec {m : FeedsModel} (hw : WF m) {i : Nat} (ha : Att m i)
    (hne : i ≠ m.rootItem) :
    ∃ p, m.parentOf i = some p ∧
      m.indexForItem (some i) =
        QModelIndex.mk (qIndexOf (m.childrenOf p) i) 0 i m.modelId := by
  obtain ⟨ch, N, hN, hchain, _, hstep⟩ := chain_descend_spec hw ha
  obtain ⟨p, hpar, hfold⟩ := hstep hne
  have hkind : m.kindOf i ≠ RootItemKind.Root := fun hk =>
    hne (hw.kind_root_only _ (att_mem hw ha) hk)
  have hfuel : N ≤ m.ids.length + 1 := by
    have := idIdx_lt_of_mem (att_mem hw ha)
    omega
  refine ⟨p, hpar, ?_⟩
  show m.indexForItemFuel (m.ids.length + 1) (some i) = _
  simp only [FeedsModel.indexForItemFuel]
  rw [if_neg hkind, hchain _ hfuel []]
  simpa using hfold

lemma indexForItem_itemIdx {m : FeedsModel} (hw : WF m) {i : Nat} (ha : Att m i)
    (hne : i ≠ m.rootItem) : m.indexForItem (some i) = itemIdx m i := by
  obtain ⟨p, hpar, heq⟩ := indexForItem_spec hw ha hne
  rw [heq]
  unfold itemIdx FeedsModel.rowOfItem
  rw [hpar]

lemma parent_itemIdx {m : FeedsModel} {c p : Nat} (hpar : m.parentOf c = some p) :
    m.parent (itemIdx m c) =
      if p = m.rootItem then QModelIndex.invalid else itemIdx m p := by
  unfold FeedsModel.parent itemIdx
  simp [FeedsModel.itemForIndex, hpar]

lemma reload_aux_nil (m : FeedsModel) : ∀ fuel, m.reloadChangedLayoutAux fuel [] = [] := by
  intro fuel
  cases fuel <;> rfl

lemma reload_aux_step {m : FeedsModel} (fuel : Nat) (indx : QModelIndex)
    (rest : List QModelIndex) (h : indx.isValid = true) :
    m.reloadChangedLayoutAux (fuel + 1) (indx :: rest) =
      Signal.dataChanged (m.index indx.row 0 (m.parent indx))
          (m.index indx.row FDS_MODEL_COUNTS_INDEX (m.parent indx))
        :: m.reloadChangedLayoutAux fuel (rest ++ [m.parent indx]) := by
  simp only [FeedsModel.reloadChangedLayoutAux, h, if_true]

lemma reload_aux_skip {m : FeedsModel} (fuel : Nat) (indx : QModelIndex)
    (rest : List QModelIndex) (h : indx.isValid = false) :
    m.reloadChangedLayoutAux (fuel + 1) (indx :: rest) =
      m.reloadChangedLayoutAux fuel rest := by
  simp only [FeedsModel.reloadChangedLayoutAux, h, Bool.false_eq_true, if_false]

lemma reload_aux_spec {m : FeedsModel} (hw : WF m) {i : Nat} (ha : Att m i) :
    i ≠ m.rootItem →
    ∃ N, N ≤ idIdx m i + 2 ∧
      ∀ fuel, N ≤ fuel →
        m.reloadChangedLayoutAux fuel [itemIdx m i] = ancestorRowSignals m i := by
  induction ha with
  | root => intro h; exact absurd rfl h
  | @child p c hp hc ih =>
    intro _
    obtain ⟨hpar, hne, hkind⟩ := att_child_parent hw hp hc
    have hcm : c ∈ m.ids := hw.closed _ (att_mem hw hp) _ hc
    have hidx : idIdx m p < idIdx m c := parent_before_idx hw hcm hpar
    obtain ⟨chp, Np, hNp, hchainp, hrootp, _⟩ := chain_descend_spec hw hp
    have hpmem : p ∈ m.ids := att_mem hw hp
    have hNpc : Np ≤ m.ids.length + 1 := by
      have := idIdx_lt_of_mem hpmem
      omega
    have hchainc : ∀ fuel, Np + 1 ≤ fuel → ∀ acc,
        chainToRoot m fuel c acc = some ((chp ++ [c]) ++ acc) := by
      intro fuel hf acc
      cases fuel with
      | zero => omega
      | succ f =>
        simp only [chainToRoot, if_neg hkind, hpar]
        rw [hchainp f (by omega) (c :: acc)]
        simp
    have hNc : Np + 1 ≤ m.ids.length + 1 := by
      have := idIdx_lt_of_mem hcm
      omega
    have hac : ancestorChain m c = chp ++ [c] := by
      unfold ancestorChain
      rw [hchainc _ hNc []]
      simp
    have hsig : ancestorRowSignals m c =
        rowRegionSig m c :: (chp.reverse.map (rowRegionSig m)) := by
      unfold ancestorRowSignals
      rw [hac]
      simp
    have hhead : Signal.dataChanged (m.index (itemIdx m c).row 0 (m.parent (itemIdx m c)))
        (m.index (itemIdx m c).row FDS_MODEL_COUNTS_INDEX (m.parent (itemIdx m c))) =
        rowRegionSig m c := rfl
    by_cases hpr : p = m.rootItem
    · have hparent : m.parent (itemIdx m c) = QModelIndex.invalid := by
        rw [parent_itemIdx hpar, if_pos hpr]
      refine ⟨2, by omega, ?_⟩
      intro fuel hf
      obtain ⟨f, rfl⟩ : ∃ f, fuel = f + 1 + 1 := ⟨fuel - 2, by omega⟩
      rw [reload_aux_step (f + 1) (itemIdx m c) [] rfl, hhead, List.nil_append, hparent,
        reload_aux_skip f QModelIndex.invalid [] rfl, reload_aux_nil,
        hsig, hrootp hpr]
      rfl
    · have hparent : m.parent (itemIdx m c) = itemIdx m p := by
        rw [parent_itemIdx hpar, if_neg hpr]
      obtain ⟨Nr, hNr, hreload⟩ := ih hpr
      refine ⟨Nr + 1, by omega, ?_⟩
      intro fuel hf
      obtain ⟨f, rfl⟩ : ∃ f, fuel = f + 1 := ⟨fuel - 1, by omega⟩
      rw [reload_aux_step f (itemIdx m c) [] rfl, hhead, List.nil_append, hparent,
        hreload f (by omega), hsig]
      have hap : ancestorChain m p = chp := by
        unfold ancestorChain
        rw [hchainp _ hNpc []]
        simp
      unfold ancestorRowSignals
      rw [hap]

lemma reloadChangedItem_spec {m : FeedsModel} (hw : WF m) {i : Nat} (ha : Att m i)
    (hne : i ≠ m.rootItem) : m.reloadChangedItem i = ancestorRowSignals m i := by
  obtain ⟨N, hN, hrel⟩ := reload_aux_spec hw ha hne
  unfold FeedsModel.reloadChangedItem
  rw [indexForItem_itemIdx hw ha hne]
  exact hrel _ (by
    have := idIdx_lt_of_mem (att_mem hw ha)
    omega)

lemma index_valid_elim {m : FeedsModel} {r col : Int} {pidx : QModelIndex}
    (h : m.index r col pidx ≠ QModelIndex.invalid) :
    ∃ (n : Nat) (child : Nat), r = (n : Int) ∧
      (m.childrenOf (m.itemForIndex pidx)).get? n = some child ∧
      m.index r col pidx = QModelIndex.mk r col child m.modelId := by
  by_cases hhi : m.hasIndex r col pidx = true
  · have hr : 0 ≤ r := by
      unfold FeedsModel.hasIndex at hhi
      simp only [Bool.and_eq_true, decide_eq_true_eq] at hhi
      exact hhi.1.1.1
    rcases hg : (m.childrenOf (m.itemForIndex pidx)).get? r.toNat with _ | child
    · exfalso
      apply h
      unfold FeedsModel.index
      rw [if_pos hhi, hg]
    · refine ⟨r.toNat, child, by omega, hg, ?_⟩
      unfold FeedsModel.index
      rw [if_pos hhi, hg]
  · exfalso
    apply h
    unfold FeedsModel.index
    rw [if_neg hhi]

lemma index_col0 {m : FeedsModel} (r : Int) (t : QModelIndex) :
    (m.index r 0 t).column ≠ 1 := by
  unfold FeedsModel.index
  by_cases hhi : m.hasIndex r 0 t = true
  · rw [if_pos hhi]
    rcases hg : (m.childrenOf (m.itemForIndex t)).get? r.toNat with _ | child
    · simp [QModelIndex.column]
    · simp [QModelIndex.column]
  · rw [if_neg hhi]
    simp [QModelIndex.column]

lemma descendStep_col {m : FeedsModel} (tgt : QModelIndex) (p : Nat) :
    (descendStep m tgt p).column ≠ 1 := by
  unfold descendStep
  rcases hp : m.parentOf p with _ | pp
  · simp [QModelIndex.column]
  · exact index_col0 _ _

lemma foldl_descend_col {m : FeedsModel} (l : List Nat) (tgt : QModelIndex)
    (h : tgt.column ≠ 1) : (l.foldl (descendStep m) tgt).column ≠ 1 := by
  induction l generalizing tgt with
  | nil => exact h
  | cons x xs ih => exact ih _ (descendStep_col tgt x)

lemma indexForItemFuel_col (m : FeedsModel) (fuel : Nat) (item : Option Nat) :
    (m.indexForItemFuel fuel item).column ≠ 1 := by
  rcases item with _ | i
  · simp [FeedsModel.indexForItemFuel, QModelIndex.column]
  · show (m.indexForItemFuel fuel (some i)).column ≠ 1
    simp only [FeedsModel.indexForItemFuel]
    by_cases hk : m.kindOf i = RootItemKind.Root
    · rw [if_pos hk]
      simp [QModelIndex.column]
    · rw [if_neg hk]
      rcases hc : chainToRoot m fuel i [] with _ | ch
      · simp [QModelIndex.column]
      · exact foldl_descend_col ch QModelIndex.invalid (by simp [QModelIndex.column])

lemma mimeData_foldl (m : FeedsModel) (l : List QModelIndex) :
    ∀ acc, l.foldl (mimeStep m) acc =
      acc ++ (l.filter (mimeKeep m)).map m.itemForIndex := by
  induction l with
  | nil => intro acc; simp
  | cons x xs ih =>
    intro acc
    rw [List.foldl_cons, ih, List.filter_cons]
    by_cases hx : x.column = 0
    · by_cases hk : m.kindOf (m.itemForIndex x) = RootItemKind.Root
      · simp [mimeStep, mimeKeep, hx, hk]
      · simp [mimeStep, mimeKeep, hx, hk]
    · simp [mimeStep, mimeKeep, hx]

lemma mimeData_spec (m : FeedsModel) (indexes : List QModelIndex) :
    m.mimeData indexes = (indexes.filter (mimeKeep m)).map m.itemForIndex := by
  have h := mimeData_foldl m indexes []
  simpa [FeedsModel.mimeData] using h

lemma wf_exM : WF exM := by
  refine ⟨?_, ?_, ?_, ?_, ?_, ?_, ?_, ?_⟩ <;> decide

lemma att_exM1 : Att exM 1 := Att.child Att.root (by decide)

lemma att_exM2 : Att exM 2 := Att.child att_exM1 (by decide)

lemma att_exM3 : Att exM 3 := Att.child att_exM2 (by decide)

lemma att_exM4 : Att exM 4 := Att.child att_exM1 (by decide)

/-- C4: itemForCoordinate resolves every invalid coordinate, and every
coordinate originating from a different model, to the Root item, and is
total: every result is either the root item or the internal pointer of a
valid own-model coordinate, never null. -/
theorem C4_itemForIndex_invalid_resolves_root (m : FeedsModel) :
    m.itemForIndex QModelIndex.invalid = m.rootItem ∧
    (∀ r c p mod, mod ≠ m.modelId →
      m.itemForIndex (QModelIndex.mk r c p mod) = m.rootItem) ∧
    (∀ idx, m.itemForIndex idx = m.rootItem ∨
      ∃ r c p, idx = QModelIndex.mk r c p m.modelId ∧ m.itemForIndex idx = p) := by
  refine ⟨rfl, ?_, ?_⟩
  · intro r c p mod hmod
    simp [FeedsModel.itemForIndex, hmod]
  · intro idx
    rcases idx with _ | ⟨r, c, p, mod⟩
    · exact Or.inl rfl
    · by_cases hmod : mod = m.modelId
      · subst hmod
        exact Or.inr ⟨r, c, p, rfl, by simp [FeedsModel.itemForIndex]⟩
      · exact Or.inl (by simp [FeedsModel.itemForIndex, hmod])

theorem C4_witness :
    exM.itemForIndex QModelIndex.invalid = exM.rootItem ∧
    exM.itemForIndex (QModelIndex.mk 0 0 3 99) = exM.rootItem :=
  ⟨(C4_itemForIndex_invalid_resolves_root exM).1,
   (C4_itemForIndex_invalid_resolves_root exM).2.1 0 0 3 99 (by decide)⟩

/-- C5: coordinateForItem maps a null item and any Root-kind item (in
particular the Root item itself) to the invalid coordinate; every other
attached item is mapped, by collecting the parent chain and re-descending
from the coordinate of the Root, to a coordinate anchored at the item:
internal pointer the item, column 0, row the index of the item among the
children of its parent. -/
theorem C5_indexForItem_anchor (m : FeedsModel) (hw : WF m) (i : Nat) (ha : Att m i) :
    (∀ fuel, m.indexForItemFuel fuel none = QModelIndex.invalid) ∧
    (∀ j fuel, m.kindOf j = RootItemKind.Root →
      m.indexForItemFuel fuel (some j) = QModelIndex.invalid) ∧
    (i ≠ m.rootItem → ∃ p, m.parentOf i = some p ∧
      m.indexForItem (some i) =
        QModelIndex.mk (qIndexOf (m.childrenOf p) i) 0 i m.modelId) := by
  refine ⟨fun fuel => rfl, ?_, fun hne => indexForItem_spec hw ha hne⟩
  intro j fuel hj
  simp [FeedsModel.indexForItemFuel, hj]

theorem C5_witness :
    exM.indexForItem (some 3) = QModelIndex.mk 0 0 3 7 ∧
    exM.indexForItemFuel 6 (some 0) = QModelIndex.invalid := by
  have h := C5_indexForItem_anchor exM wf_exM 3 att_exM3
  obtain ⟨p, hp, heq⟩ := h.2.2 (by decide)
  have hp2 : p = 2 := by
    have h2 : exM.parentOf 3 = some 2 := by decide
    rw [h2] at hp
    exact (Option.some.inj hp).symm
  subst hp2
  exact ⟨by rw [heq]; decide, h.2.1 0 6 (by decide)⟩

/-- C10: for every attached item other than the Root,
itemForCoordinate (coordinateForItem I) = I, and coordinateForItem never
yields a column-1 coordinate on any input (its column is always 0 or the
invalid -1). -/
theorem C10_roundtrip_item (m : FeedsModel) (hw : WF m) (i : Nat) (ha : Att m i)
    (hne : i ≠ m.rootItem) :
    m.itemForIndex (m.indexForItem (some i)) = i ∧
    (∀ fuel item, (m.indexForItemFuel fuel item).column ≠ 1) := by
  obtain ⟨p, hpar, heq⟩ := indexForItem_spec hw ha hne
  refine ⟨?_, fun fuel item => indexForItemFuel_col m fuel item⟩
  rw [heq]
  simp [FeedsModel.itemForIndex]

theorem C10_witness : exM.itemForIndex (exM.indexForItem (some 4)) = 4 :=
  (C10_roundtrip_item exM wf_exM 4 att_exM4 (by decide)).1

/-- C2 counterexample: on the example tree, index(0, 1, invalid) is a valid
coordinate produced by the model (column 1 of the account row, item 1,
which is attached), but the round trip through itemForCoordinate and then
coordinateForItem does not return it: the result has column 0. -/
theorem C2_counterexample :
    (exM.index 0 1 QModelIndex.invalid).isValid = true ∧
    exM.indexForItem (some (exM.itemForIndex (exM.index 0 1 QModelIndex.invalid))) ≠
      exM.index 0 1 QModelIndex.invalid := by
  decide

/-- C2 amended: the round trip holds exactly for the column-0 coordinates:
for every valid coordinate produced by the model with column 0 (and an
attached parent item), coordinateForItem (itemForCoordinate c) = c,
including row and column; a valid column-1 coordinate instead round-trips
to the column-0 coordinate of the same row and item. -/
theorem C2_roundtrip_col0 (m : FeedsModel) (hw : WF m) (r : Int) (pidx : QModelIndex)
    (hatt : Att m (m.itemForIndex pidx))
    (hv : m.index r 0 pidx ≠ QModelIndex.invalid) :
    m.indexForItem (some (m.itemForIndex (m.index r 0 pidx))) = m.index r 0 pidx := by
  obtain ⟨n, child, hrn, hget, heq⟩ := index_valid_elim hv
  have hcmem : child ∈ m.childrenOf (m.itemForIndex pidx) := List.get?_mem hget
  have hac : Att m child := Att.child hatt hcmem
  obtain ⟨hpar, hne, _⟩ := att_child_parent hw hatt hcmem
  obtain ⟨p2, hp2, hifi⟩ := indexForItem_spec hw hac hne
  have hp2e : p2 = m.itemForIndex pidx := by
    rw [hpar] at hp2
    exact (Option.some.inj hp2).symm
  subst hp2e
  have hidx : qIndexOf (m.childrenOf (m.itemForIndex pidx)) child = (n : Int) := by
    unfold qIndexOf
    rw [qFindIdx_get (hw.children_nodup _ (att_mem hw hatt)) hget]
  have hitem : m.itemForIndex (m.index r 0 pidx) = child := by
    rw [heq]
    simp [FeedsModel.itemForIndex]
  rw [hitem, heq, hifi, hidx, ← hrn]

theorem C2_witness :
    exM.indexForItem (some (exM.itemForIndex (exM.index 0 0 QModelIndex.invalid))) =
      exM.index 0 0 QModelIndex.invalid :=
  C2_roundtrip_col0 exM wf_exM 0 QModelIndex.invalid Att.root (by decide)

/-- C1 counterexample: payload [3, 4] dropped on target item 4 under the
move action: the second token, item 4, equals the drop target, so the claim
requires failure together with a completely unchanged tree.  The operation
does return false, but the first token, feed 3, has already been reparented
from category 2 into category 4, so the tree is changed: the abort is not
all-or-nothing. -/
theorem C1_counterexample :
    exM.itemForIndex tIdx = 4 ∧
    (4 : Nat) ∈ [3, 4] ∧
    (exM.dropMimeData [3, 4] DropAction.MoveAction 0 0 tIdx).res = false ∧
    (exM.dropMimeData [3, 4] DropAction.MoveAction 0 0 tIdx).st.childrenOf 4 = [3] ∧
    exM.childrenOf 4 = [] ∧
    (exM.dropMimeData [3, 4] DropAction.MoveAction 0 0 tIdx).st.childrenOf 2 = [] ∧
    exM.childrenOf 2 = [3] := by
  decide

/-- C1 amended: the rejection conditions abort the drop from the offending
token onward, not retroactively: when the first dragged item of a non-empty
move payload equals the drop target, has the drop target as its current
parent, or lies under a different parent service root than the target, the
whole operation returns false and the tree is left completely unchanged.
When the offending token comes later in the payload, the operation still
returns false at that token, but tokens processed before it may already
have been reparented (see the counterexample). -/
theorem C1_first_offender_aborts_unchanged (m : FeedsModel) (d : Nat) (rest : List Nat)
    (row column : Int) (pidx : QModelIndex)
    (hoff : d = m.itemForIndex pidx ∨
            m.parentOf d = some (m.itemForIndex pidx) ∨
            m.getParentServiceRoot d ≠ m.getParentServiceRoot (m.itemForIndex pidx)) :
    (m.dropMimeData (d :: rest) DropAction.MoveAction row column pidx).res = false ∧
    (m.dropMimeData (d :: rest) DropAction.MoveAction row column pidx).st = m := by
  have hstep : m.dropMimeData (d :: rest) DropAction.MoveAction row column pidx =
      dropLoop pidx m (d :: rest) := by
    simp [FeedsModel.dropMimeData]
  rw [hstep]
  by_cases h1 : d = m.itemForIndex pidx ∨ m.parentOf d = some (m.itemForIndex pidx)
  · simp only [dropLoop, if_pos h1]
    exact ⟨trivial, trivial⟩
  · have h2 : m.getParentServiceRoot d ≠ m.getParentServiceRoot (m.itemForIndex pidx) := by
      tauto
    simp only [dropLoop, if_neg h1, if_pos h2]
    exact ⟨trivial, trivial⟩

theorem C1_witness :
    (exM.dropMimeData [4] DropAction.MoveAction 0 0 tIdx).res = false ∧
    (exM.dropMimeData [4] DropAction.MoveAction 0 0 tIdx).st = exM :=
  C1_first_offender_aborts_unchanged exM 4 [] 0 0 tIdx (Or.inl (by decide))

/-- C6: only the move action is processed by the drop handler: the ignore
action is accepted with no effect, any other non-move action is rejected
with result false, and in every non-move case the tree state is unchanged
and nothing is emitted, so no identity token is decoded into a reparenting
delegation. -/
theorem C6_non_move_rejected (m : FeedsModel) (payload : List Nat) (action : DropAction)
    (row column : Int) (pidx : QModelIndex) (hne : action ≠ DropAction.MoveAction) :
    (m.dropMimeData payload action row column pidx).st = m ∧
    (m.dropMimeData payload action row column pidx).out = [] ∧
    (action = DropAction.IgnoreAction →
      (m.dropMimeData payload action row column pidx).res = true) ∧
    (action ≠ DropAction.IgnoreAction →
      (m.dropMimeData payload action row column pidx).res = false) := by
  by_cases hig : action = DropAction.IgnoreAction
  · subst hig
    simp [FeedsModel.dropMimeData]
  · simp [FeedsModel.dropMimeData, hig, hne]

theorem C6_witness :
    (exM.dropMimeData [3] DropAction.CopyAction 0 0 tIdx).st = exM ∧
    (exM.dropMimeData [3] DropAction.CopyAction 0 0 tIdx).res = false :=
  ⟨(C6_non_move_rejected exM [3] DropAction.CopyAction 0 0 tIdx (by decide)).1,
   (C6_non_move_rejected exM [3] DropAction.CopyAction 0 0 tIdx (by decide)).2.2.2
     (by decide)⟩

/-- C7: the encoded drag payload holds exactly one identity token per
selected coordinate that sits in column 0 and resolves to a non-Root item,
in selection order; coordinates in other columns contribute nothing and the
Root item is never serialized. -/
theorem C7_mimeData_tokens (m : FeedsModel) (indexes : List QModelIndex) :
    m.mimeData indexes = (indexes.filter (mimeKeep m)).map m.itemForIndex ∧
    ∀ t ∈ m.mimeData indexes, m.kindOf t ≠ RootItemKind.Root := by
  refine ⟨mimeData_spec m indexes, ?_⟩
  intro t ht
  rw [mimeData_spec m indexes] at ht
  obtain ⟨ix, hix, rfl⟩ := List.mem_map.mp ht
  have hkeep := List.of_mem_filter hix
  unfold mimeKeep at hkeep
  simp only [Bool.and_eq_true, decide_eq_true_eq] at hkeep
  exact hkeep.2

theorem C7_witness :
    exM.mimeData [QModelIndex.mk 0 0 1 7, QModelIndex.mk 0 1 2 7, QModelIndex.invalid] =
      [1] := by
  have h := (C7_mimeData_tokens exM
    [QModelIndex.mk 0 0 1 7, QModelIndex.mk 0 1 2 7, QModelIndex.invalid]).1
  rw [h]
  decide

/-- C8: notifyCountsChanged emits exactly one messageCountsChanged signal
carrying the recomputed unread total of the entire tree (the count of the
Root item) and a flag that is true exactly when at least one feed of the
tree is in the NewMessages state. -/
theorem C8_notifyWithCounts_pair (m : FeedsModel) :
    m.notifyWithCounts =
      [Signal.messageCountsChanged m.countOfUnreadMessages m.hasAnyFeedNewMessages] ∧
    (m.hasAnyFeedNewMessages = true ↔
      ∃ f, f ∈ m.getSubTreeFeeds ∧ m.statusOf f = FeedStatus.NewMessages) := by
  refine ⟨rfl, ?_⟩
  unfold FeedsModel.hasAnyFeedNewMessages
  rw [List.any_eq_true]
  constructor
  · rintro ⟨f, hf, hs⟩
    exact ⟨f, hf, by simpa using hs⟩
  · rintro ⟨f, hf, hs⟩
    exact ⟨f, hf, by simpa using hs⟩

theorem C8_witness :
    exM.notifyWithCounts =
      [Signal.messageCountsChanged exM.countOfUnreadMessages exM.hasAnyFeedNewMessages] ∧
    exM.hasAnyFeedNewMessages = true :=
  ⟨(C8_notifyWithCounts_pair exM).1,
   (C8_notifyWithCounts_pair exM).2.mpr ⟨3, by decide, by decide⟩⟩

/-- C9: the debug handler terminates the application exactly for fatal
severity: informational (INFO), warning and critical messages produce only
a text-sink write, while a fatal message writes its line and additionally
requests application termination with the failure exit code. -/
theorem C9_fatal_only_terminates (t : QtMsgType) (file : String) (line : Int)
    (message : String) :
    ((Debugging.debugHandler t file line message).any LogEffect.isExit = true ↔
      t = QtMsgType.QtFatalMsg) ∧
    (t ≠ QtMsgType.QtFatalMsg →
      (Debugging.debugHandler t file line message).all LogEffect.isWrite = true) ∧
    (t = QtMsgType.QtFatalMsg →
      Debugging.debugHandler t file line message =
        [LogEffect.writeStderr ("FATAL") file line message,
         LogEffect.exitApp EXIT_FAILURE]) := by
  cases t <;>
    simp [Debugging.debugHandler, DEBUG_OUTPUT_WORKER, LogEffect.isExit, LogEffect.isWrite]

theorem C9_witness :
    Debugging.debugHandler QtMsgType.QtFatalMsg ("main.cpp") 10 ("boom") =
      [LogEffect.writeStderr ("FATAL") ("main.cpp") 10 ("boom"),
       LogEffect.exitApp EXIT_FAILURE] ∧
    (Debugging.debugHandler QtMsgType.QtWarningMsg ("main.cpp") 10 ("warn")).all
      LogEffect.isWrite = true :=
  ⟨(C9_fatal_only_terminates QtMsgType.QtFatalMsg ("main.cpp") 10 ("boom")).2.2 rfl,
   (C9_fatal_only_terminates QtMsgType.QtWarningMsg ("main.cpp") 10 ("warn")).2.1
     (by decide)⟩

/-- C3: onItemDataChanged: when the change set exceeds the fixed threshold,
the trace is exactly one full-layout invalidation pair followed by exactly
one counts notification, with no per-item row signals; at or below the
threshold, the trace is, per item, one dataChanged region spanning columns
0 through the last column of the row of the item and of each of its
ancestors bottom-up excluding the root, followed by exactly one counts
notification. -/
theorem C3_onItemDataChanged_trace (m : FeedsModel) (hw : WF m) (items : List Nat)
    (hitems : ∀ it ∈ items, Att m it ∧ it ≠ m.rootItem) :
    (items.length > RELOAD_MODEL_BORDER_NUM →
      m.onItemDataChanged items =
        [Signal.layoutAboutToBeChanged, Signal.layoutChanged,
         Signal.messageCountsChanged m.countOfUnreadMessages m.hasAnyFeedNewMessages]) ∧
    (items.length ≤ RELOAD_MODEL_BORDER_NUM →
      m.onItemDataChanged items =
        (items.map (ancestorRowSignals m)).flatten ++
          [Signal.messageCountsChanged m.countOfUnreadMessages
            m.hasAnyFeedNewMessages]) := by
  constructor
  · intro hlen
    unfold FeedsModel.onItemDataChanged
    rw [if_pos hlen]
    rfl
  · intro hlen
    unfold FeedsModel.onItemDataChanged
    rw [if_neg (by omega)]
    have hmap : items.map m.reloadChangedItem = items.map (ancestorRowSignals m) :=
      List.map_congr_left
        (fun it hit => reloadChangedItem_spec hw (hitems it hit).1 (hitems it hit).2)
    rw [hmap]
    rfl

theorem C3_witness :
    exM.onItemDataChanged [3] =
      (([3].map (ancestorRowSignals exM)).flatten ++
        [Signal.messageCountsChanged exM.countOfUnreadMessages
          exM.hasAnyFeedNewMessages]) := by
  have hit : ∀ it ∈ [3], Att exM it ∧ it ≠ exM.rootItem := by
    intro it hmem
    have h3 : it = 3 := by simpa using hmem
    subst h3
    exact ⟨att_exM3, by decide⟩
  exact (C3_onItemDataChanged_trace exM wf_exM [3] hit).2 (by decide)
